import Mathlib

/-!
Verification of the streaming call-session engine in `src/backend/main.py`
(the Twilio websocket handler and its helpers).  Pure fragments of the
Python source are embedded as Lean functions; the websocket loop is
embedded as a recursive function over the list of inbound messages,
with calls to `time.time()` modelled by consuming an explicit clock list
and effects on the external store modelled as an output trace.
-/

namespace Receptive

/-!  ## Python string primitives

`str.strip()`, `str.split(NL, 1)`, `str.rsplit(NL, 1)` and the code-fence
tests used by the source are embedded structurally over `List Char` so
that every closed run reduces inside the kernel. -/

/-- Python whitespace as removed by `str.strip()`. -/
def isPySpace (c : Char) : Bool :=
  c.toNat = 32 || c.toNat = 9 || c.toNat = 10 || c.toNat = 13 ||
    c.toNat = 11 || c.toNat = 12

/-- Python `s.strip()`. -/
def pyStrip (s : String) : String :=
  String.mk (((s.data.dropWhile isPySpace).reverse.dropWhile isPySpace).reverse)

def nlCh : Char := Char.ofNat 10

def btCh : Char := Char.ofNat 96

def splitNLAux : List Char → List Char → List (List Char)
  | [], acc => [acc.reverse]
  | c :: rest, acc =>
    if c = nlCh then acc.reverse :: splitNLAux rest [] else splitNLAux rest (c :: acc)

/-- Split a character list at newline characters (Python `s.split(NL)`). -/
def splitNL (l : List Char) : List (List Char) := splitNLAux l []

def joinNL : List (List Char) → List Char
  | [] => []
  | [x] => x
  | x :: xs => x ++ nlCh :: joinNL xs

/-- Python `s.split(NL, 1)[-1]`: everything after the first newline, or
the whole string when there is none. -/
def afterFirstNL (s : String) : String :=
  match splitNL s.data with
  | [] => s
  | [_] => s
  | _ :: rest => String.mk (joinNL rest)

/-- Python `s.rsplit(NL, 1)[0]`: everything before the last newline, or
the whole string when there is none. -/
def beforeLastNL (s : String) : String :=
  match splitNL s.data with
  | [] => s
  | [_] => s
  | parts => String.mk (joinNL parts.dropLast)

def fenceChs : List Char := [btCh, btCh, btCh]

/-- Python `s.startswith(FENCE)` for the three-backtick fence. -/
def startsWithFence (s : String) : Bool := s.data.take 3 == fenceChs

/-- Python `s.endswith(FENCE)` for the three-backtick fence. -/
def endsWithFence (s : String) : Bool := s.data.reverse.take 3 == fenceChs

/-- The transcript state of one call.  Embeds the dataclass
`TranscriptState` of `src/backend/main.py` (lines 272-291).  The field
`pending_text` embeds the source field `partial_text` (renamed here);
`started_at` and `last_ai_push` are monotonic-clock readings, modelled
as rationals. -/
structure TranscriptState where
  call_sid : String
  stream_sid : String
  started_at : ℚ
  final_text : String := ""
  pending_text : String := ""
  last_ai_push : ℚ := 0
deriving Repr, DecidableEq

/-- Embeds `TranscriptState.update_final` (lines 285-291): a non-empty
`text` is appended to `final_text` with a single separating space (or
becomes `final_text` when that was empty); `partial_text` is cleared in
every case. -/
def TranscriptState.update_final (s : TranscriptState) (text : String) : TranscriptState :=
  let s1 :=
    if text ≠ "" then
      if s.final_text ≠ "" then { s with final_text := s.final_text ++ " " ++ text }
      else { s with final_text := text }
    else s
  { s1 with pending_text := "" }

/-- The combined transcript view built inline at line 460 of the source:
`f"{state.final_text} {state.partial_text}".strip()`. -/
def combinedView (s : TranscriptState) : String :=
  pyStrip (s.final_text ++ " " ++ s.pending_text)

theorem update_final_step_le (s : TranscriptState) (text : String) :
    s.final_text.length ≤ (s.update_final text).final_text.length := by
  unfold TranscriptState.update_final
  by_cases ht : text = "" <;> by_cases hf : s.final_text = "" <;>
    simp [ht, hf, String.length_append]
  omega

/-- C9: across any sequence of `update_final` calls the character length of
`final_text` is monotonically non-decreasing — each call either leaves
`final_text` unchanged or strictly extends it by appending, never rewriting
or truncating.  Stated both for a single call and for an arbitrary sequence
of calls folded over one session state. -/
theorem final_text_monotone :
    (∀ (s : TranscriptState) (text : String),
      s.final_text.length ≤ (s.update_final text).final_text.length) ∧
    (∀ (texts : List String) (s : TranscriptState),
      s.final_text.length ≤ (texts.foldl TranscriptState.update_final s).final_text.length) := by
  constructor
  · exact update_final_step_le
  · intro texts
    induction texts with
    | nil => intro s; simp
    | cons t ts ih =>
      intro s
      calc s.final_text.length ≤ (s.update_final t).final_text.length :=
            update_final_step_le s t
        _ ≤ _ := ih (s.update_final t)

/-!  ## Frame buffer

Embeds the buffering part of `CheetahStream.process_chunk`
(lines 311-325): the converted samples are appended to the byte buffer and
whole frames of `frame_length` samples are removed from the front while at
least one whole frame remains.  The buffer is modelled at sample
granularity (each 16-bit sample is 2 bytes in the source). -/

/-- The drain loop of `process_chunk` (lines 320-322): repeatedly remove
exactly `frameLen` samples from the front of the buffer while at least
`frameLen` remain.  Returns the drained frames in order and the residual
buffer. -/
def drainFrames (frameLen : Nat) (buf : List Int) : List (List Int) × List Int :=
  if h : 0 < frameLen ∧ frameLen ≤ buf.length then
    let res := drainFrames frameLen (buf.drop frameLen)
    (buf.take frameLen :: res.1, res.2)
  else ([], buf)
termination_by buf.length
decreasing_by
  simp only [List.length_drop]
  omega

theorem drainFrames_append_eq (frameLen : Nat) (buf : List Int) :
    (drainFrames frameLen buf).1.flatten ++ (drainFrames frameLen buf).2 = buf := by
  induction buf using drainFrames.induct frameLen with
  | case1 buf h ih =>
    rw [drainFrames, dif_pos h]
    simp only [List.flatten_cons, List.append_assoc]
    rw [ih]
    exact List.take_append_drop frameLen buf
  | case2 buf h =>
    rw [drainFrames, dif_neg h]
    simp

theorem drainFrames_frame_len (frameLen : Nat) (buf : List Int) :
    ∀ f ∈ (drainFrames frameLen buf).1, f.length = frameLen := by
  induction buf using drainFrames.induct frameLen with
  | case1 buf h ih =>
    rw [drainFrames, dif_pos h]
    intro f hf
    rcases List.mem_cons.mp hf with hf | hf
    · subst hf; simp [List.length_take]; omega
    · exact ih f hf
  | case2 buf h =>
    rw [drainFrames, dif_neg h]
    simp

theorem drainFrames_rest_lt (frameLen : Nat) (buf : List Int)
    (hL : 0 < frameLen) : (drainFrames frameLen buf).2.length < frameLen := by
  induction buf using drainFrames.induct frameLen with
  | case1 buf h ih =>
    rw [drainFrames, dif_pos h]
    exact ih
  | case2 buf h =>
    rw [drainFrames, dif_neg h]
    simp only []
    omega

/-- Repeated `process_chunk` buffering across a sequence of media chunks:
each chunk's converted samples extend the residual buffer and all whole
frames are drained, as at lines 317-322 of the source.  Returns all drained
frames in order together with the final residual buffer. -/
def pushChunks (frameLen : Nat) : List Int → List (List Int) → List (List Int) × List Int
  | buf, [] => ([], buf)
  | buf, c :: cs =>
    let res1 := drainFrames frameLen (buf ++ c)
    let res2 := pushChunks frameLen res1.2 cs
    (res1.1 ++ res2.1, res2.2)

theorem pushChunks_flatten (frameLen : Nat) (cs : List (List Int)) :
    ∀ buf, (pushChunks frameLen buf cs).1.flatten ++ (pushChunks frameLen buf cs).2
      = buf ++ cs.flatten := by
  induction cs with
  | nil => intro buf; simp [pushChunks]
  | cons c cs ih =>
    intro buf
    simp only [pushChunks, List.flatten_append, List.flatten_cons, List.append_assoc]
    rw [ih (drainFrames frameLen (buf ++ c)).2, ← List.append_assoc,
      drainFrames_append_eq, List.append_assoc]

theorem pushChunks_frame_len (frameLen : Nat) (cs : List (List Int)) :
    ∀ buf f, f ∈ (pushChunks frameLen buf cs).1 → f.length = frameLen := by
  induction cs with
  | nil => intro buf f hf; simp [pushChunks] at hf
  | cons c cs ih =>
    intro buf f hf
    simp only [pushChunks, List.mem_append] at hf
    rcases hf with hf | hf
    · exact drainFrames_frame_len frameLen (buf ++ c) f hf
    · exact ih _ f hf

theorem pushChunks_rest_lt (frameLen : Nat) (cs : List (List Int))
    (hL : 0 < frameLen) :
    ∀ buf, buf.length < frameLen → (pushChunks frameLen buf cs).2.length < frameLen := by
  induction cs with
  | nil => intro buf hbuf; simpa [pushChunks] using hbuf
  | cons c cs ih =>
    intro buf hbuf
    simp only [pushChunks]
    exact ih _ (drainFrames_rest_lt frameLen (buf ++ c) hL)

/-- C7: for every sequence of media chunks whose total converted sample
count is a multiple of the frame size, draining yields exactly
`total / frameLen` frames, each of exactly `frameLen` samples, whose
concatenation in order equals the concatenation of the input chunks (FIFO),
with an empty residual buffer; moreover after every single drain the buffer
holds strictly fewer samples than one frame. -/
theorem frame_buffer_exact (frameLen : Nat) (cs : List (List Int))
    (hL : 0 < frameLen) (hmul : cs.flatten.length % frameLen = 0) :
    (pushChunks frameLen [] cs).1.length = cs.flatten.length / frameLen ∧
    (∀ f ∈ (pushChunks frameLen [] cs).1, f.length = frameLen) ∧
    (pushChunks frameLen [] cs).1.flatten = cs.flatten ∧
    (pushChunks frameLen [] cs).2 = [] ∧
    (∀ buf : List Int, (drainFrames frameLen buf).2.length < frameLen) := by
  have hflat := pushChunks_flatten frameLen cs []
  have hlens := pushChunks_frame_len frameLen cs []
  have hrest : (pushChunks frameLen [] cs).2.length < frameLen :=
    pushChunks_rest_lt frameLen cs hL [] (by simpa using hL)
  have hsum : (pushChunks frameLen [] cs).1.flatten.length
      + (pushChunks frameLen [] cs).2.length = cs.flatten.length := by
    have := congrArg List.length hflat
    simpa [List.length_append] using this
  have hframes_len : (pushChunks frameLen [] cs).1.flatten.length
      = frameLen * (pushChunks frameLen [] cs).1.length := by
    rw [List.length_flatten]
    rw [List.map_congr_left (fun f hf => hlens f hf)]
    simp [List.map_const', Nat.mul_comm]
  have hrest0 : (pushChunks frameLen [] cs).2.length = 0 := by
    have hmod : (pushChunks frameLen [] cs).2.length % frameLen = 0 := by
      have h1 : (frameLen * (pushChunks frameLen [] cs).1.length
          + (pushChunks frameLen [] cs).2.length) % frameLen
          = (pushChunks frameLen [] cs).2.length % frameLen := Nat.mul_add_mod _ _ _
      rw [← h1, ← hframes_len, hsum]
      exact hmul
    rwa [Nat.mod_eq_of_lt hrest] at hmod
  have hrestnil : (pushChunks frameLen [] cs).2 = [] :=
    List.eq_nil_of_length_eq_zero hrest0
  refine ⟨?_, hlens, ?_, hrestnil, fun buf => drainFrames_rest_lt frameLen buf hL⟩
  · have htot : (pushChunks frameLen [] cs).1.flatten.length = cs.flatten.length := by
      omega
    have hmuln : frameLen * (pushChunks frameLen [] cs).1.length = cs.flatten.length := by
      rw [← hframes_len]; exact htot
    rw [← hmuln, Nat.mul_div_cancel_left _ hL]
  · have := hflat
    rw [hrestnil] at this
    simpa using this

/-- C7 witness: two chunks of 3 and 5 samples with frame length 4 yield
exactly 2 frames of 4 samples each, in arrival order, with empty residual. -/
theorem frame_buffer_exact_witness :
    (0 < 4 ∧ ([[1, 2, 3], [4, 5, 6, 7, 8]] : List (List Int)).flatten.length % 4 = 0) ∧
    ((pushChunks 4 [] [[1, 2, 3], [4, 5, 6, 7, 8]]).1.length
        = ([[1, 2, 3], [4, 5, 6, 7, 8]] : List (List Int)).flatten.length / 4 ∧
      (∀ f ∈ (pushChunks 4 [] [[1, 2, 3], [4, 5, 6, 7, 8]]).1, f.length = 4) ∧
      (pushChunks 4 [] [[1, 2, 3], [4, 5, 6, 7, 8]]).1.flatten
        = ([[1, 2, 3], [4, 5, 6, 7, 8]] : List (List Int)).flatten ∧
      (pushChunks 4 [] [[1, 2, 3], [4, 5, 6, 7, 8]]).2 = [] ∧
      (∀ buf : List Int, (drainFrames 4 buf).2.length < 4)) :=
  ⟨⟨by decide, by decide⟩,
    frame_buffer_exact 4 [[1, 2, 3], [4, 5, 6, 7, 8]] (by decide) (by decide)⟩

/-!  ## JSON values and `json.loads`

`build_ai_card` (lines 245-269) parses the model's response with
`json.loads`.  The Python `json` module is standard-library code outside
this repository, so it is embedded here as a recursive-descent acceptor of
the JSON grammar `json.loads` implements (including the non-standard
`NaN` / `Infinity` / `-Infinity` literals CPython accepts by default). -/

/-- JSON values. -/
inductive JVal where
  | null
  | bool (b : Bool)
  | num (lexeme : String)
  | str (s : String)
  | arr (elems : List JVal)
  | obj (members : List (String × JVal))
deriving Repr

def qCh : Char := Char.ofNat 34

def bsCh : Char := Char.ofNat 92

def lbCh : Char := Char.ofNat 123

def rbCh : Char := Char.ofNat 125

def isJsonWs (c : Char) : Bool :=
  c.toNat = 32 || c.toNat = 9 || c.toNat = 10 || c.toNat = 13

def skipWs : List Char → List Char
  | [] => []
  | c :: rest => if isJsonWs c then skipWs rest else c :: rest

def hexVal (c : Char) : Option Nat :=
  if '0' ≤ c ∧ c ≤ '9' then some (c.toNat - 48)
  else if 'a' ≤ c ∧ c ≤ 'f' then some (c.toNat - 87)
  else if 'A' ≤ c ∧ c ≤ 'F' then some (c.toNat - 55)
  else none

def escChar (e : Char) : Option Char :=
  if e = qCh then some qCh
  else if e = bsCh then some bsCh
  else if e = '/' then some '/'
  else if e = 'b' then some (Char.ofNat 8)
  else if e = 'f' then some (Char.ofNat 12)
  else if e = 'n' then some (Char.ofNat 10)
  else if e = 'r' then some (Char.ofNat 13)
  else if e = 't' then some (Char.ofNat 9)
  else none

/-- Parse the body of a JSON string literal (the opening quote having been
consumed); returns the decoded content and the remaining input. -/
def parseStr : List Char → Option (String × List Char)
  | [] => none
  | c :: rest =>
    if c = qCh then some ("", rest)
    else if c.toNat < 32 then none
    else if c = bsCh then
      match rest with
      | 'u' :: a :: b :: c2 :: d :: rest3 =>
        match hexVal a, hexVal b, hexVal c2, hexVal d with
        | some ha, some hb, some hc, some hd =>
          (parseStr rest3).map (fun r =>
            (String.singleton (Char.ofNat (((ha * 16 + hb) * 16 + hc) * 16 + hd)) ++ r.1, r.2))
        | _, _, _, _ => none
      | e :: rest2 =>
        match escChar e with
        | some ch => (parseStr rest2).map (fun r => (String.singleton ch ++ r.1, r.2))
        | none => none
      | [] => none
    else (parseStr rest).map (fun r => (String.singleton c ++ r.1, r.2))

def jsonDigits (l : List Char) : List Char × List Char :=
  (l.takeWhile (fun c => c.isDigit), l.dropWhile (fun c => c.isDigit))

def parseIntPart : List Char → Option (List Char × List Char)
  | [] => none
  | c :: rest =>
    if c = '0' then some ([c], rest)
    else if c.isDigit then
      let d := jsonDigits rest
      some (c :: d.1, d.2)
    else none

def parseFrac : List Char → Option (List Char × List Char)
  | [] => some ([], [])
  | c :: r =>
    if c = '.' then
      let d := jsonDigits r
      if d.1.isEmpty then none else some (c :: d.1, d.2)
    else some ([], c :: r)

def parseExp : List Char → Option (List Char × List Char)
  | [] => some ([], [])
  | c :: r =>
    if c = 'e' ∨ c = 'E' then
      let sr : List Char × List Char :=
        match r with
        | s :: r2 => if s = '+' ∨ s = '-' then ([s], r2) else ([], r)
        | [] => ([], [])
      let d := jsonDigits sr.2
      if d.1.isEmpty then none else some (c :: (sr.1 ++ d.1), d.2)
    else some ([], c :: r)

/-- Parse a JSON number; returns its lexeme and the remaining input. -/
def parseNum (l : List Char) : Option (String × List Char) :=
  let sl : List Char × List Char :=
    match l with
    | c :: rest => if c = '-' then (['-'], rest) else ([], l)
    | [] => ([], [])
  match parseIntPart sl.2 with
  | none => none
  | some ir =>
    match parseFrac ir.2 with
    | none => none
    | some fr =>
      match parseExp fr.2 with
      | none => none
      | some er => some (String.mk (sl.1 ++ ir.1 ++ fr.1 ++ er.1), er.2)

def expectLit (lit : List Char) (l : List Char) : Option (List Char) :=
  if l.take lit.length = lit then some (l.drop lit.length) else none

mutual

/-- Parse one JSON value (fuelled recursive descent). -/
def parseVal : Nat → List Char → Option (JVal × List Char)
  | 0, _ => none
  | fuel + 1, l =>
    match skipWs l with
    | [] => none
    | c :: rest =>
      if c = qCh then (parseStr rest).map (fun r => (JVal.str r.1, r.2))
      else if c = lbCh then parseMembers fuel (skipWs rest) true []
      else if c = '[' then parseElems fuel (skipWs rest) true []
      else if c = 't' then (expectLit ['r', 'u', 'e'] rest).map (fun r => (JVal.bool true, r))
      else if c = 'f' then (expectLit ['a', 'l', 's', 'e'] rest).map (fun r => (JVal.bool false, r))
      else if c = 'n' then (expectLit ['u', 'l', 'l'] rest).map (fun r => (JVal.null, r))
      else if c = 'N' then (expectLit ['a', 'N'] rest).map (fun r => (JVal.num "NaN", r))
      else if c = 'I' then
        (expectLit ['n', 'f', 'i', 'n', 'i', 't', 'y'] rest).map (fun r => (JVal.num "Infinity", r))
      else if c = '-' ∧ rest.take 1 = ['I'] then
        (expectLit ['I', 'n', 'f', 'i', 'n', 'i', 't', 'y'] rest).map
          (fun r => (JVal.num "-Infinity", r))
      else (parseNum (c :: rest)).map (fun r => (JVal.num r.1, r.2))

/-- Parse array elements after `[` (leading whitespace already skipped). -/
def parseElems : Nat → List Char → Bool → List JVal → Option (JVal × List Char)
  | 0, _, _, _ => none
  | _ + 1, [], _, _ => none
  | fuel + 1, c :: rest, first, acc =>
    if c = ']' ∧ first then some (JVal.arr [], rest)
    else
      match parseVal fuel (c :: rest) with
      | none => none
      | some vr =>
        match skipWs vr.2 with
        | ',' :: l3 => parseElems fuel l3 false (acc ++ [vr.1])
        | ']' :: l3 => some (JVal.arr (acc ++ [vr.1]), l3)
        | _ => none

/-- Parse object members after the opening brace (leading whitespace
already skipped). -/
def parseMembers : Nat → List Char → Bool → List (String × JVal) →
    Option (JVal × List Char)
  | 0, _, _, _ => none
  | _ + 1, [], _, _ => none
  | fuel + 1, c :: rest, first, acc =>
    if c = rbCh ∧ first then some (JVal.obj [], rest)
    else if c = qCh then
      match parseStr rest with
      | none => none
      | some kr =>
        match skipWs kr.2 with
        | ':' :: l3 =>
          match parseVal fuel l3 with
          | none => none
          | some vr =>
            match skipWs vr.2 with
            | ',' :: l5 => parseMembers fuel (skipWs l5) false (acc ++ [(kr.1, vr.1)])
            | r :: l5 => if r = rbCh then some (JVal.obj (acc ++ [(kr.1, vr.1)]), l5) else none
            | [] => none
        | _ => none
    else none

end

/-- Embeds `json.loads`: parse one JSON document, allowing surrounding
whitespace, requiring the whole input to be consumed. -/
def json_loads (s : String) : Option JVal :=
  match parseVal (s.length * 2 + 16) s.toList with
  | some vr => if (skipWs vr.2).isEmpty then some vr.1 else none
  | none => none

/-- Whether a JSON number lexeme denotes zero (used for Python truthiness
of parsed numbers). -/
def numIsZero (lexeme : String) : Bool :=
  let mant := lexeme.toList.takeWhile (fun c => c ≠ 'e' ∧ c ≠ 'E')
  mant.all (fun c => c = '0' ∨ c = '.' ∨ c = '-' ∨ c = '+') && mant.any (fun c => c = '0')

/-- Python truthiness of a parsed JSON value, as tested by `if card:` at
line 462 of the source. -/
def JVal.pyTruthy : JVal → Bool
  | .null => false
  | .bool b => b
  | .num s => !(numIsZero s)
  | .str s => !(s.isEmpty)
  | .arr xs => !(xs.isEmpty)
  | .obj ms => !(ms.isEmpty)

/-!  ## The summarization step (`build_ai_card`, lines 245-269) -/

/-- Outcome of one call to the external Gemini model: the call either
raises an exception or returns a response whose `.text` attribute is the
given string.  The model is external to the repository, so runs are
parametrized by an oracle giving the outcome for each input. -/
inductive GeminiOutcome where
  | raises
  | returns (text : String)

/-- The code-fence stripping of `build_ai_card` (lines 255-258). -/
def stripFences (text : String) : String :=
  if startsWithFence text then
    let t1 := afterFirstNL text
    if endsWithFence t1 then beforeLastNL t1 else t1
  else text

/-- The fallback card built at lines 264-269 of the source when the model
response fails to parse as JSON: its `summary` is the (stripped) response
text itself. -/
def fallbackCard (text : String) : JVal :=
  JVal.obj [("summary", JVal.str text), ("sentiment", JVal.str "neutral"),
    ("urgency", JVal.str "medium"), ("action_items", JVal.arr [])]

/-- Embeds `build_ai_card` (lines 245-269).  An empty (stripped) transcript
returns `none` without consulting the model; a raised exception from the
model propagates (`Except.error`, nothing in the source catches it); a
response that fails `json.loads` is replaced by `fallbackCard`. -/
def build_ai_card (gem : String → GeminiOutcome) (transcript : String) :
    Except Unit (Option JVal) :=
  if pyStrip transcript = "" then .ok none
  else
    match gem transcript with
    | .raises => .error ()
    | .returns rtext =>
      let text := stripFences (pyStrip rtext)
      match json_loads text with
      | some v => .ok (some v)
      | none => .ok (some (fallbackCard text))

/-!  ## Recognition adapter (`CheetahStream`, lines 294-332)

The pvcheetah engine is an external collaborator; it is modelled as a
deterministic transition system over an opaque state type, and every run
is parametrized by it. -/

/-- Abstract model of the external recognition engine: `process` consumes
one frame of samples and returns the new engine state, the incremental
text and the endpoint flag; `flush` returns residual confirmed text. -/
structure RecEngine (σ : Type) where
  process : σ → List Int → σ × String × Bool
  flush : σ → σ × String

/-- Embeds `CheetahStream._process_frame` (lines 301-309): on an endpoint
the engine is flushed and the frame's incremental text is space-joined
with the flush residual (incremental first), trimmed; otherwise the
trimmed incremental text is returned with `False`. -/
def processFrame {σ : Type} (E : RecEngine σ) (es : σ) (frame : List Int) :
    σ × String × Bool :=
  let r := E.process es frame
  if r.2.2 then
    let f := E.flush r.1
    (f.1, (pyStrip (r.2.1 ++ " " ++ f.2), true))
  else (r.1, (pyStrip r.2.1, false))

/-- Embeds `CheetahStream.flush` (lines 327-329): trim the engine's flush
residual and turn an empty result into `None`. -/
def cheetahFlush {σ : Type} (E : RecEngine σ) (es : σ) : σ × Option String :=
  let f := E.flush es
  (f.1, if pyStrip f.2 = "" then none else some (pyStrip f.2))

/-- Embeds the per-chunk pipeline of `CheetahStream.process_chunk`
(lines 311-325) after audio conversion: extend the buffer with the
converted samples, drain whole frames, process each drained frame in
order, and yield only the non-empty texts. -/
def processChunk {σ : Type} (E : RecEngine σ) (frameLen : Nat) (es : σ)
    (buf : List Int) (chunk : List Int) : σ × List Int × List (String × Bool) :=
  let dr := drainFrames frameLen (buf ++ chunk)
  let step := dr.1.foldl
    (fun (acc : σ × List (String × Bool)) frame =>
      let r := processFrame E acc.1 frame
      (r.1, if r.2.1 ≠ "" then acc.2 ++ [r.2] else acc.2))
    (es, [])
  (step.1, dr.2, step.2)

/-!  ## Effects on the external store and the per-text handler -/

/-- One observable effect of the websocket handler: a PATCH to the
Firebase store, a websocket close, or resource teardown in the `finally`
block. -/
inductive Effect where
  | patchConnected (callSid streamSid : String)
  | patchTranscript (callSid finalText pendingText : String)
  | patchAI (callSid : String) (card : JVal)
  | patchPaused (callSid notice : String)
  | patchCompleted (callSid : String)
  | wsClose
  | firebaseClose
  | engineRelease
deriving Repr

def Effect.isRelease : Effect → Bool
  | .engineRelease => true
  | _ => false

/-- The throttle condition of line 458: `now - state.last_ai_push > 1.0`. -/
def throttleOpen (last now : ℚ) : Prop := now - last > 1

instance (last now : ℚ) : Decidable (throttleOpen last now) := by
  unfold throttleOpen; infer_instance

/-- Embeds the body of the per-text loop in the `media` branch of
`twilio_websocket` (lines 450-464): update the transcript state, emit a
transcript snapshot (`update_firebase`), then, when strictly more than
1.0 s of clock time has passed since `last_ai_push`, call `build_ai_card`
on the combined view, patch the card if truthy, and stamp
`last_ai_push := now`.  A raised summarization exception propagates as
`Except.error` carrying the effects already emitted. -/
def handleRecText (gem : String → GeminiOutcome) (s : TranscriptState)
    (t : String) (isFinal : Bool) (now : ℚ) :
    Except (List Effect) (TranscriptState × List Effect) :=
  let s1 := if isFinal then s.update_final t else { s with pending_text := t }
  let effs := [Effect.patchTranscript s1.call_sid s1.final_text s1.pending_text]
  if throttleOpen s1.last_ai_push now then
    match build_ai_card gem (combinedView s1) with
    | .error _ => .error effs
    | .ok card =>
      let effs := effs ++
        (match card with
          | some c => if c.pyTruthy then [Effect.patchAI s1.call_sid c] else []
          | none => [])
      .ok ({ s1 with last_ai_push := now }, effs)
  else .ok (s1, effs)

/-- Folds `handleRecText` over the texts yielded by one media chunk,
consuming one clock reading per text (the source calls `time.time()` once
per yielded text, line 457). -/
def handleTexts (gem : String → GeminiOutcome) :
    TranscriptState → List ℚ → List (String × Bool) →
    Except (List Effect) (TranscriptState × List ℚ × List Effect)
  | s, clock, [] => .ok (s, clock, [])
  | s, clock, (t, fin) :: rest =>
    match handleRecText gem s t fin (clock.headD 0) with
    | .error effs => .error effs
    | .ok sr =>
      match handleTexts gem sr.1 clock.tail rest with
      | .error effs2 => .error (sr.2 ++ effs2)
      | .ok sr2 => .ok (sr2.1, sr2.2.1, sr.2 ++ sr2.2.2)

/-!  ## C2: failure handling of the summarization step -/

/-- C2 counterexample: for the unparsable model output `"hello"`, the
substituted card's `summary` is the raw output text `"hello"`, not the
fixed string `"unavailable"` the claim requires. -/
theorem unparsable_card_counterexample :
    build_ai_card (fun _ => GeminiOutcome.returns "hello") "hi"
      = Except.ok (some (JVal.obj [("summary", JVal.str "hello"),
          ("sentiment", JVal.str "neutral"), ("urgency", JVal.str "medium"),
          ("action_items", JVal.arr [])])) ∧
    "hello" ≠ "unavailable" := by
  exact ⟨rfl, by decide⟩

/-- C2 (amended): when the summarization model returns output that is not
valid JSON, `build_ai_card` substitutes a card whose `summary` is the
trimmed, fence-stripped raw output itself (with `sentiment="neutral"`,
`urgency="medium"`, `action_items=[]`) and returns successfully, so the
session continues; a raised model exception, by contrast, is not caught
and propagates. -/
theorem unparsable_card_substitution (gem : String → GeminiOutcome)
    (transcript rtext : String)
    (hne : ¬ pyStrip transcript = "")
    (hret : gem transcript = GeminiOutcome.returns rtext)
    (hbad : json_loads (stripFences (pyStrip rtext)) = none) :
    build_ai_card gem transcript
      = Except.ok (some (fallbackCard (stripFences (pyStrip rtext)))) ∧
    fallbackCard (stripFences (pyStrip rtext))
      = JVal.obj [("summary", JVal.str (stripFences (pyStrip rtext))),
          ("sentiment", JVal.str "neutral"), ("urgency", JVal.str "medium"),
          ("action_items", JVal.arr [])] ∧
    (∀ (g2 : String → GeminiOutcome) (t2 : String),
      g2 t2 = GeminiOutcome.raises → ¬ pyStrip t2 = "" →
      build_ai_card g2 t2 = Except.error ()) := by
  refine ⟨?_, rfl, ?_⟩
  · unfold build_ai_card
    rw [if_neg hne, hret]
    simp only [hbad]
  · intro g2 t2 h2 hne2
    unfold build_ai_card
    rw [if_neg hne2, h2]

/-- C2 witness: the amended statement applied at the concrete model output
`"x"` on transcript `"hola"`. -/
theorem unparsable_card_substitution_witness :
    build_ai_card (fun _ => GeminiOutcome.returns "x") "hola"
      = Except.ok (some (fallbackCard (stripFences (pyStrip "x")))) ∧
    fallbackCard (stripFences (pyStrip "x"))
      = JVal.obj [("summary", JVal.str (stripFences (pyStrip "x"))),
          ("sentiment", JVal.str "neutral"), ("urgency", JVal.str "medium"),
          ("action_items", JVal.arr [])] ∧
    (∀ (g2 : String → GeminiOutcome) (t2 : String),
      g2 t2 = GeminiOutcome.raises → ¬ pyStrip t2 = "" →
      build_ai_card g2 t2 = Except.error ()) :=
  unparsable_card_substitution (fun _ => GeminiOutcome.returns "x") "hola" "x"
    (by decide) rfl rfl

/-!  ## C4: endpoint finalization -/

/-- Scripted engine for the C4 scenario: the first two frames report the
incremental texts of the scenario without an endpoint, the third frame
reports `("for Tuesday", True)`; flushing yields no residual. -/
def engC4 : RecEngine Nat :=
  { process := fun n _ =>
      (n + 1,
        if n = 0 then ("I need", false)
        else if n = 1 then ("I need a plumber", false)
        else ("for Tuesday", true)),
    flush := fun n => (n + 1, "") }

/-- A summarization oracle whose model always returns the empty string. -/
def gemEmpty : String → GeminiOutcome := fun _ => GeminiOutcome.returns ""

/-- Fresh session state for the C4 scenario. -/
def c4state : TranscriptState :=
  { call_sid := "C1", stream_sid := "S1", started_at := 0 }

/-- The C4 scenario run: one media chunk of three frames (frame length 2)
through the scripted engine, its yielded texts folded through the per-text
handler with clock readings that keep the enrichment throttle closed. -/
def c4run : Except (List Effect) (TranscriptState × List ℚ × List Effect) :=
  handleTexts gemEmpty c4state [0, 0, 0]
    (processChunk engC4 2 0 [] [0, 0, 0, 0, 0, 0]).2.2

/-- C4 counterexample: in the scenario of the claim (incremental texts
`"I need"`, `"I need a plumber"`, then an endpoint frame reporting
`("for Tuesday", True)`), the code leaves `finalText = "for Tuesday"` —
the pending partial text is discarded, not merged — so `finalText` does
not equal the claimed `"I need a plumber for Tuesday"`. -/
theorem endpoint_scenario_counterexample :
    (c4run.toOption.map (fun r => (r.1.final_text, r.1.pending_text))
      = some ("for Tuesday", "")) ∧
    ¬ ("for Tuesday" = "I need a plumber for Tuesday") := by
  have hq : ¬ throttleOpen (0 : ℚ) 0 := by norm_num [throttleOpen]
  have hdr : drainFrames 2 [0, 0, 0, 0, 0, 0] = ([[0, 0], [0, 0], [0, 0]], []) := by
    simp [drainFrames]
  have hyield : (processChunk engC4 2 0 [] [0, 0, 0, 0, 0, 0]).2.2
      = [("I need", false), ("I need a plumber", false), ("for Tuesday", true)] := by
    simp only [processChunk, List.nil_append, hdr, List.foldl_cons, List.foldl_nil]
    decide
  refine ⟨?_, by decide⟩
  simp [c4run, hyield, handleTexts, handleRecText, hq, c4state, gemEmpty,
    TranscriptState.update_final, Except.toOption]

/-- C4 (amended): on an endpoint frame the adapter flushes the engine and
space-joins the frame's incremental text with the flush residual
(incremental first), trimmed, and that single string is what reaches
`update_final`; `update_final` appends it to `final_text` ignoring and
clearing the pending partial text, so in the scenario `finalText` ends up
`"for Tuesday"` (the flush residual being empty) and `partialText` ends up
empty. -/
theorem endpoint_finalization {σ : Type} (E : RecEngine σ) (es : σ)
    (frame : List Int) (t : String)
    (hp : (E.process es frame).2 = (t, true)) :
    processFrame E es frame
      = ((E.flush (E.process es frame).1).1,
         (pyStrip (t ++ " " ++ (E.flush (E.process es frame).1).2), true)) ∧
    (∀ (s : TranscriptState) (p x : String),
      TranscriptState.update_final { s with pending_text := p } x
        = s.update_final x ∧
      (s.update_final x).pending_text = "") := by
  constructor
  · have h1 : (E.process es frame).2.1 = t := by rw [hp]
    have h2 : (E.process es frame).2.2 = true := by rw [hp]
    simp [processFrame, h1, h2]
  · intro s p x
    constructor
    · by_cases hx : x = "" <;> by_cases hf : s.final_text = "" <;>
        simp [TranscriptState.update_final, hx, hf]
    · by_cases hx : x = "" <;> by_cases hf : s.final_text = "" <;>
        simp [TranscriptState.update_final, hx, hf]

/-- C4 witness: the amended statement applied to the scripted engine at
the endpoint frame of the scenario. -/
theorem endpoint_finalization_witness :
    (engC4.process 2 [0, 0]).2 = ("for Tuesday", true) ∧
    (processFrame engC4 2 [0, 0]
      = ((engC4.flush (engC4.process 2 [0, 0]).1).1,
         (pyStrip ("for Tuesday" ++ " " ++ (engC4.flush (engC4.process 2 [0, 0]).1).2), true)) ∧
    (∀ (s : TranscriptState) (p x : String),
      TranscriptState.update_final { s with pending_text := p } x
        = s.update_final x ∧
      (s.update_final x).pending_text = "")) :=
  ⟨by decide, endpoint_finalization engC4 2 [0, 0] "for Tuesday" (by decide)⟩

/-!  ## The websocket session loop (`twilio_websocket`, lines 420-481)

The loop is embedded as a recursive function over the list of inbound
messages.  Each call to `time.time()` consumes the head of an explicit
clock list; effects on the Firebase store, the websocket and the engine
are collected into a trace. -/

/-- The process-wide configuration read at lines 37-38:
`FREE_TIER_GUARD` and `MAX_CALL_MINUTES`. -/
structure Config where
  freeTierGuard : Bool
  maxCallMinutes : ℚ

/-- Embeds `TranscriptState.elapsed_minutes` (lines 281-283), with the
current clock reading passed explicitly. -/
def TranscriptState.elapsed_minutes (s : TranscriptState) (now : ℚ) : ℚ :=
  (now - s.started_at) / 60

/-- The guard condition of line 443:
`FREE_TIER_GUARD and state.elapsed_minutes > MAX_CALL_MINUTES`. -/
def guardTrips (cfg : Config) (s : TranscriptState) (now : ℚ) : Prop :=
  cfg.freeTierGuard = true ∧ s.elapsed_minutes now > cfg.maxCallMinutes

instance (cfg : Config) (s : TranscriptState) (now : ℚ) :
    Decidable (guardTrips cfg s now) := by
  unfold guardTrips; infer_instance

/-- One inbound websocket message, classified: `malformed` is a message on
which `json.loads` raises (line 429); `start`/`media`/`stop` are
well-formed protocol events (the `media` payload is given as its converted
samples); `other` is a parseable message whose `event` discriminant is
unrecognized or absent. -/
inductive InMsg where
  | malformed
  | start (streamSid : String) (callSid : Option String)
  | media (chunk : List Int)
  | stop
  | other (kind : String)

def InMsg.isStart : InMsg → Bool
  | .start _ _ => true
  | _ => false

/-- Whether a message reaches the guard check at line 443: any message
other than `start` that is handled while a session exists. -/
def InMsg.isLive : InMsg → Bool
  | .media _ => true
  | .stop => true
  | .other _ => true
  | _ => false

/-- How the session loop ended: the message stream was exhausted
(disconnect), a stop event was processed (line 476), the guard tripped
(line 446), or an uncaught exception escaped the loop. -/
inductive Outcome where
  | drained
  | stopped
  | paused
  | crashed
deriving Repr, DecidableEq

/-- The notice text patched at line 444. -/
def guardNotice : String := "Free tier budget exceeded"

/-- The message loop of `twilio_websocket` (lines 428-476), from an
arbitrary configuration: remaining messages, clock readings, engine state,
frame-buffer residual, and current session state.  Returns the effect
trace emitted by the loop body and how the loop ended. -/
def loopAux {σ : Type} (cfg : Config) (E : RecEngine σ) (frameLen : Nat)
    (gem : String → GeminiOutcome) :
    List InMsg → List ℚ → σ → List Int → Option TranscriptState →
    List Effect × Outcome
  | [], _, _, _, _ => ([], .drained)
  | msg :: rest, clock, es, buf, st =>
    match msg with
    | .malformed => ([], .crashed)
    | .start stream callSid =>
      let sid := callSid.getD stream
      let s0 : TranscriptState :=
        { call_sid := sid, stream_sid := stream, started_at := clock.headD 0 }
      let r := loopAux cfg E frameLen gem rest clock.tail es buf (some s0)
      (Effect.patchConnected sid stream :: r.1, r.2)
    | .media chunk =>
      match st with
      | none => loopAux cfg E frameLen gem rest clock es buf none
      | some s =>
        if guardTrips cfg s (clock.headD 0) then
          ([Effect.patchPaused s.call_sid guardNotice, Effect.wsClose], .paused)
        else
          let clock1 := if cfg.freeTierGuard then clock.tail else clock
          let pc := processChunk E frameLen es buf chunk
          match handleTexts gem s clock1 pc.2.2 with
          | .error effs => (effs, .crashed)
          | .ok hr =>
            let r := loopAux cfg E frameLen gem rest hr.2.1 pc.1 pc.2.1 (some hr.1)
            (hr.2.2 ++ r.1, r.2)
    | .stop =>
      match st with
      | none => loopAux cfg E frameLen gem rest clock es buf none
      | some s =>
        if guardTrips cfg s (clock.headD 0) then
          ([Effect.patchPaused s.call_sid guardNotice, Effect.wsClose], .paused)
        else
          let s1 := if s.pending_text ≠ "" then s.update_final s.pending_text else s
          let effs1 :=
            if s.pending_text ≠ "" then
              [Effect.patchTranscript s1.call_sid s1.final_text s1.pending_text]
            else []
          match (cheetahFlush E es).2 with
          | some r =>
            let s2 := s1.update_final r
            (effs1 ++ [Effect.patchTranscript s2.call_sid s2.final_text s2.pending_text,
              Effect.patchCompleted s2.call_sid], .stopped)
          | none => (effs1 ++ [Effect.patchCompleted s1.call_sid], .stopped)
    | .other _ =>
      match st with
      | none => loopAux cfg E frameLen gem rest clock es buf none
      | some s =>
        if guardTrips cfg s (clock.headD 0) then
          ([Effect.patchPaused s.call_sid guardNotice, Effect.wsClose], .paused)
        else
          loopAux cfg E frameLen gem rest
            (if cfg.freeTierGuard then clock.tail else clock) es buf (some s)

/-- The handler from an arbitrary mid-run configuration, followed by the
`finally` block of lines 479-481: close the Firebase client, then release
the engine (`cheetah.close()`), on every termination path. -/
def runFrom {σ : Type} (cfg : Config) (E : RecEngine σ) (frameLen : Nat)
    (gem : String → GeminiOutcome) (msgs : List InMsg) (clock : List ℚ)
    (es : σ) (buf : List Int) (st : Option TranscriptState) :
    List Effect × Outcome :=
  let r := loopAux cfg E frameLen gem msgs clock es buf st
  (r.1 ++ [Effect.firebaseClose, Effect.engineRelease], r.2)

/-- Embeds `twilio_websocket` (lines 420-481): fresh buffer, no session,
then the message loop and the `finally` block. -/
def twilio_websocket {σ : Type} (cfg : Config) (E : RecEngine σ)
    (frameLen : Nat) (gem : String → GeminiOutcome) (msgs : List InMsg)
    (clock : List ℚ) (es0 : σ) : List Effect × Outcome :=
  runFrom cfg E frameLen gem msgs clock es0 [] none

/-!  ## C5: engine release on every termination path -/

/-- Modelled from the spec: the handle of the external pvcheetah engine.
The engine implementation is not part of this repository; §4.3 of the spec
gives `release()` the contract of idempotent-intent resource teardown, so
the handle is modelled as a released flag that `release` sets. -/
structure EngineHandle where
  released : Bool

def EngineHandle.release (_h : EngineHandle) : EngineHandle := { released := true }

set_option maxHeartbeats 1000000 in
theorem handleRecText_no_release (gem : String → GeminiOutcome)
    (s : TranscriptState) (t : String) (fin : Bool) (now : ℚ) :
    (∀ e, handleRecText gem s t fin now = .error e →
      e.countP Effect.isRelease = 0) ∧
    (∀ r, handleRecText gem s t fin now = .ok r →
      r.2.countP Effect.isRelease = 0) := by
  refine ⟨?_, ?_⟩ <;> intro x h <;>
    simp only [handleRecText] at h <;>
    split at h <;> (try split at h) <;> (try split at h) <;>
    first
      | (injection h with h1
         subst h1
         simp only [List.countP_append, List.countP_cons, List.countP_nil,
           Effect.isRelease]
         (try split) <;> (try simp [Effect.isRelease]) <;>
           (try split) <;> (try simp [Effect.isRelease]))
      | injection h
  all_goals exact Bool.noConfusion (show false = true by assumption)

theorem handleTexts_no_release (gem : String → GeminiOutcome) :
    ∀ (texts : List (String × Bool)) (s : TranscriptState) (clock : List ℚ),
    (∀ e, handleTexts gem s clock texts = .error e →
      e.countP Effect.isRelease = 0) ∧
    (∀ r, handleTexts gem s clock texts = .ok r →
      r.2.2.countP Effect.isRelease = 0) := by
  intro texts
  induction texts with
  | nil =>
    intro s clock
    constructor <;> intro x h <;> simp [handleTexts] at h
    subst h
    simp
  | cons p rest ih =>
    intro s clock
    constructor <;> intro x h <;> rcases p with ⟨t, fin⟩ <;>
      simp only [handleTexts] at h
    · split at h
      · injection h with h1
        subst h1
        exact (handleRecText_no_release gem s t fin (clock.headD 0)).1 _ (by assumption)
      · split at h
        · injection h with h1
          subst h1
          rw [List.countP_append]
          have h2 := (handleRecText_no_release gem s t fin (clock.headD 0)).2 _ (by assumption)
          have h3 := (ih _ clock.tail).1 _ (by assumption)
          omega
        · exact absurd h (by simp)
    · split at h
      · exact absurd h (by simp)
      · split at h
        · exact absurd h (by simp)
        · injection h with h1
          subst h1
          simp only [List.countP_append]
          have h2 := (handleRecText_no_release gem s t fin (clock.headD 0)).2 _ (by assumption)
          have h3 := (ih _ clock.tail).2 _ (by assumption)
          omega

theorem loopAux_no_release {σ : Type} (cfg : Config) (E : RecEngine σ)
    (frameLen : Nat) (gem : String → GeminiOutcome) :
    ∀ (msgs : List InMsg) (clock : List ℚ) (es : σ) (buf : List Int)
      (st : Option TranscriptState),
    (loopAux cfg E frameLen gem msgs clock es buf st).1.countP Effect.isRelease = 0 := by
  intro msgs
  induction msgs with
  | nil => intro clock es buf st; simp [loopAux]
  | cons msg rest ih =>
    intro clock es buf st
    cases msg with
    | malformed => simp [loopAux]
    | start stream callSid =>
      simp only [loopAux, List.countP_cons]
      rw [ih clock.tail es buf
        (some { call_sid := callSid.getD stream, stream_sid := stream,
                started_at := clock.headD 0 })]
      simp [Effect.isRelease]
    | media chunk =>
      cases st with
      | none => simpa [loopAux] using ih clock es buf none
      | some s =>
        simp only [loopAux]
        split
        · simp [Effect.isRelease]
        · rcases hht : handleTexts gem s (if cfg.freeTierGuard then clock.tail else clock)
            (processChunk E frameLen es buf chunk).2.2 with e | hr
          · simp only [hht]
            exact (handleTexts_no_release gem _ s _).1 e hht
          · simp only [hht, List.countP_append]
            have h2 := (handleTexts_no_release gem _ s _).2 hr hht
            have h3 := ih hr.2.1 (processChunk E frameLen es buf chunk).1
              (processChunk E frameLen es buf chunk).2.1 (some hr.1)
            omega
    | stop =>
      cases st with
      | none => simpa [loopAux] using ih clock es buf none
      | some s =>
        simp only [loopAux]
        split
        · simp [Effect.isRelease]
        · split <;> split <;> simp [Effect.isRelease, List.countP_append]
    | other k =>
      cases st with
      | none => simpa [loopAux] using ih clock es buf none
      | some s =>
        simp only [loopAux]
        split
        · simp [Effect.isRelease]
        · exact ih _ es buf (some s)

/-- C5: on every termination path of the websocket handler — normal stop,
guard trip, crash during processing, or exhaustion of the message stream
(disconnect) — the engine release in the `finally` block runs exactly once
(the loop body itself never releases); and release on the modelled engine
handle is idempotent: releasing an already-released handle is a no-op that
cannot fail. -/
theorem engine_release_exactly_once {σ : Type} (cfg : Config)
    (E : RecEngine σ) (frameLen : Nat) (gem : String → GeminiOutcome)
    (msgs : List InMsg) (clock : List ℚ) (es0 : σ) :
    (twilio_websocket cfg E frameLen gem msgs clock es0).1.countP
        Effect.isRelease = 1 ∧
    (∀ h : EngineHandle, h.release.release = h.release ∧
      h.release.released = true) := by
  constructor
  · unfold twilio_websocket runFrom
    rw [List.countP_append]
    rw [loopAux_no_release]
    simp [Effect.isRelease]
  · intro h
    exact ⟨rfl, rfl⟩

theorem update_final_call_sid (s : TranscriptState) (t : String) :
    (s.update_final t).call_sid = s.call_sid := by
  by_cases ht : t = "" <;> by_cases hf : s.final_text = "" <;>
    simp [TranscriptState.update_final, ht, hf]

theorem update_final_pending (s : TranscriptState) (t : String) :
    (s.update_final t).pending_text = "" := by
  by_cases ht : t = "" <;> by_cases hf : s.final_text = "" <;>
    simp [TranscriptState.update_final, ht, hf]

theorem update_final_append (s : TranscriptState) (t : String)
    (ht : t ≠ "") (hf : s.final_text ≠ "") :
    (s.update_final t).final_text = s.final_text ++ " " ++ t := by
  simp [TranscriptState.update_final, ht, hf]

theorem update_final_of_empty (s : TranscriptState) (t : String)
    (ht : t ≠ "") (hf : s.final_text = "") :
    (s.update_final t).final_text = t := by
  simp [TranscriptState.update_final, ht, hf]

/-- A trivial engine model used to instantiate witnesses. -/
def trivEngine : RecEngine Nat :=
  { process := fun n _ => (n, ("", false)), flush := fun n => (n, "") }

/-!  ## C6: the elapsed-time guard -/

/-- C6: when any post-start message arrives for a live session while the
guard is enabled and the session's elapsed minutes exceed the configured
maximum, the loop pauses the session: the notice is patched to the store,
the websocket is closed, the loop ends in `paused`, the `finally` block
releases the engine exactly once, and the remaining messages are never
processed (the result does not depend on them). -/
theorem guard_pause {σ : Type} (cfg : Config) (E : RecEngine σ)
    (frameLen : Nat) (gem : String → GeminiOutcome) (msg : InMsg)
    (rest : List InMsg) (clock : List ℚ) (es : σ) (buf : List Int)
    (s : TranscriptState)
    (hk : msg.isLive = true)
    (hg : guardTrips cfg s (clock.headD 0)) :
    runFrom cfg E frameLen gem (msg :: rest) clock es buf (some s)
      = ([Effect.patchPaused s.call_sid guardNotice, Effect.wsClose,
          Effect.firebaseClose, Effect.engineRelease], Outcome.paused) ∧
    (runFrom cfg E frameLen gem (msg :: rest) clock es buf (some s)).1.countP
        Effect.isRelease = 1 := by
  have main : loopAux cfg E frameLen gem (msg :: rest) clock es buf (some s)
      = ([Effect.patchPaused s.call_sid guardNotice, Effect.wsClose],
         Outcome.paused) := by
    cases msg with
    | malformed => simp [InMsg.isLive] at hk
    | start a b => simp [InMsg.isLive] at hk
    | media c => simp only [loopAux]; rw [if_pos hg]
    | stop => simp only [loopAux]; rw [if_pos hg]
    | other k => simp only [loopAux]; rw [if_pos hg]
  constructor
  · unfold runFrom
    rw [main]
    rfl
  · unfold runFrom
    rw [main]
    rfl

/-- Session state used by the C6 witness. -/
def gswit : TranscriptState :=
  { call_sid := "C6", stream_sid := "S6", started_at := 0 }

/-- C6 witness: guard limit 1 minute, a stop message arriving 90 s in. -/
theorem guard_pause_witness :
    (InMsg.stop.isLive = true ∧
      guardTrips { freeTierGuard := true, maxCallMinutes := 1 } gswit
        (([90] : List ℚ).headD 0)) ∧
    (runFrom { freeTierGuard := true, maxCallMinutes := 1 } trivEngine 2
        gemEmpty [InMsg.stop] [90] 0 [] (some gswit)
      = ([Effect.patchPaused gswit.call_sid guardNotice, Effect.wsClose,
          Effect.firebaseClose, Effect.engineRelease], Outcome.paused) ∧
    (runFrom { freeTierGuard := true, maxCallMinutes := 1 } trivEngine 2
        gemEmpty [InMsg.stop] [90] 0 [] (some gswit)).1.countP
        Effect.isRelease = 1) := by
  have hg : guardTrips { freeTierGuard := true, maxCallMinutes := 1 } gswit
      (([90] : List ℚ).headD 0) := by
    refine ⟨rfl, ?_⟩
    norm_num [TranscriptState.elapsed_minutes, gswit]
  exact ⟨⟨rfl, hg⟩,
    guard_pause { freeTierGuard := true, maxCallMinutes := 1 } trivEngine 2
      gemEmpty InMsg.stop [] [90] 0 [] gswit rfl hg⟩

/-!  ## C8: stop finalization order -/

/-- C8: on a stop event with non-empty `partial_text` and a non-empty
engine flush residual (and the guard not tripping), the loop appends the
partial text to `final_text` first, then the flush residual, emitting a
transcript snapshot after each append, and only then emits the completion
snapshot; the loop ends in `stopped`. -/
theorem stop_appends_in_order {σ : Type} (cfg : Config) (E : RecEngine σ)
    (frameLen : Nat) (gem : String → GeminiOutcome) (rest : List InMsg)
    (clock : List ℚ) (es : σ) (buf : List Int) (s : TranscriptState)
    (hng : ¬ guardTrips cfg s (clock.headD 0))
    (hp : s.pending_text ≠ "")
    (hr : pyStrip (E.flush es).2 ≠ "") :
    runFrom cfg E frameLen gem (InMsg.stop :: rest) clock es buf (some s)
      = ([Effect.patchTranscript s.call_sid
            (s.update_final s.pending_text).final_text "",
          Effect.patchTranscript s.call_sid
            ((s.update_final s.pending_text).update_final
              (pyStrip (E.flush es).2)).final_text "",
          Effect.patchCompleted s.call_sid,
          Effect.firebaseClose, Effect.engineRelease], Outcome.stopped) ∧
    ((s.update_final s.pending_text).update_final
        (pyStrip (E.flush es).2)).final_text
      = (s.update_final s.pending_text).final_text ++ " "
          ++ pyStrip (E.flush es).2 ∧
    (s.update_final s.pending_text).final_text
      = (if s.final_text = "" then s.pending_text
         else s.final_text ++ " " ++ s.pending_text) := by
  have h1cs := update_final_call_sid s s.pending_text
  have h1p := update_final_pending s s.pending_text
  have h1f : (s.update_final s.pending_text).final_text ≠ "" := by
    by_cases hf : s.final_text = ""
    · rw [update_final_of_empty s s.pending_text hp hf]; exact hp
    · rw [update_final_append s s.pending_text hp hf]
      intro hcon
      have hlen := congrArg String.length hcon
      rw [String.length_append, String.length_append] at hlen
      have hsp : (" " : String).length = 1 := rfl
      have hz : ("" : String).length = 0 := rfl
      rw [hsp, hz] at hlen
      omega
  have h2cs := update_final_call_sid (s.update_final s.pending_text)
    (pyStrip (E.flush es).2)
  have h2p := update_final_pending (s.update_final s.pending_text)
    (pyStrip (E.flush es).2)
  refine ⟨?_, update_final_append _ _ hr h1f, ?_⟩
  · unfold runFrom
    simp only [loopAux]
    rw [if_neg hng]
    simp [ne_eq, hp, hr, cheetahFlush, h1cs, h1p, h2cs, h2p]
  · by_cases hf : s.final_text = ""
    · rw [if_pos hf]; exact update_final_of_empty s s.pending_text hp hf
    · rw [if_neg hf]; exact update_final_append s s.pending_text hp hf

/-- Engine whose flush residual is `"tail words"`, for the C8 witness. -/
def engFlush : RecEngine Nat :=
  { process := fun n _ => (n, ("", false)), flush := fun n => (n, "tail words") }

/-- Session state with pending partial text, for the C8 witness. -/
def s8 : TranscriptState :=
  { call_sid := "C8", stream_sid := "S8", started_at := 0,
    final_text := "done part", pending_text := "pending part" }

/-- C8 witness: the stop ordering applied at a concrete session with
pending text `"pending part"` and flush residual `"tail words"`. -/
theorem stop_appends_in_order_witness :
    (¬ guardTrips { freeTierGuard := false, maxCallMinutes := 1 } s8
        (([] : List ℚ).headD 0) ∧
      s8.pending_text ≠ "" ∧ pyStrip (engFlush.flush 0).2 ≠ "") ∧
    (runFrom { freeTierGuard := false, maxCallMinutes := 1 } engFlush 2
        gemEmpty (InMsg.stop :: []) [] 0 [] (some s8)
      = ([Effect.patchTranscript s8.call_sid
            (s8.update_final s8.pending_text).final_text "",
          Effect.patchTranscript s8.call_sid
            ((s8.update_final s8.pending_text).update_final
              (pyStrip (engFlush.flush 0).2)).final_text "",
          Effect.patchCompleted s8.call_sid,
          Effect.firebaseClose, Effect.engineRelease], Outcome.stopped) ∧
      ((s8.update_final s8.pending_text).update_final
          (pyStrip (engFlush.flush 0).2)).final_text
        = (s8.update_final s8.pending_text).final_text ++ " "
            ++ pyStrip (engFlush.flush 0).2 ∧
      (s8.update_final s8.pending_text).final_text
        = (if s8.final_text = "" then s8.pending_text
           else s8.final_text ++ " " ++ s8.pending_text)) := by
  have hng : ¬ guardTrips { freeTierGuard := false, maxCallMinutes := 1 } s8
      (([] : List ℚ).headD 0) := by
    simp [guardTrips]
  have hp : s8.pending_text ≠ "" := by decide
  have hr : pyStrip (engFlush.flush 0).2 ≠ "" := by decide
  exact ⟨⟨hng, hp, hr⟩,
    stop_appends_in_order { freeTierGuard := false, maxCallMinutes := 1 }
      engFlush 2 gemEmpty [] [] 0 [] s8 hng hp hr⟩

/-!  ## C10: missing callSid defaults to streamSid -/

/-- The call identifier a store effect is keyed by (the sid segment of its
Firebase path), when it has one. -/
def Effect.key : Effect → Option String
  | .patchConnected c _ => some c
  | .patchTranscript c _ _ => some c
  | .patchAI c _ => some c
  | .patchPaused c _ => some c
  | .patchCompleted c => some c
  | .wsClose => none
  | .firebaseClose => none
  | .engineRelease => none

set_option maxHeartbeats 1000000 in
theorem handleRecText_key_inv (gem : String → GeminiOutcome)
    (s : TranscriptState) (t : String) (fin : Bool) (now : ℚ) :
    (∀ e, handleRecText gem s t fin now = .error e →
      ∀ x ∈ e, x.key = none ∨ x.key = some s.call_sid) ∧
    (∀ r, handleRecText gem s t fin now = .ok r →
      r.1.call_sid = s.call_sid ∧
      ∀ x ∈ r.2, x.key = none ∨ x.key = some s.call_sid) := by
  have hcs : ∀ (b : Bool),
      ((if b = true then s.update_final t else { s with pending_text := t }) :
        TranscriptState).call_sid = s.call_sid := by
    intro b; cases b <;> simp [update_final_call_sid]
  constructor
  · intro e h
    simp only [handleRecText] at h
    by_cases hth : throttleOpen
        (if fin = true then s.update_final t
          else { s with pending_text := t }).last_ai_push now
    · rw [if_pos hth] at h
      cases hbc : build_ai_card gem (combinedView
          (if fin = true then s.update_final t
            else { s with pending_text := t })) with
      | error u =>
        simp only [hbc] at h
        injection h with h1
        subst h1
        intro x hx
        simp only [List.mem_singleton] at hx
        subst hx
        right
        simp [Effect.key, hcs]
      | ok card =>
        simp only [hbc] at h
        exact Except.noConfusion h
    · rw [if_neg hth] at h
      exact Except.noConfusion h
  · intro r h
    simp only [handleRecText] at h
    by_cases hth : throttleOpen
        (if fin = true then s.update_final t
          else { s with pending_text := t }).last_ai_push now
    · rw [if_pos hth] at h
      cases hbc : build_ai_card gem (combinedView
          (if fin = true then s.update_final t
            else { s with pending_text := t })) with
      | error u =>
        simp only [hbc] at h
        exact Except.noConfusion h
      | ok card =>
        simp only [hbc] at h
        injection h with h1
        subst h1
        refine ⟨by simp [hcs], ?_⟩
        intro x hx
        simp only [List.mem_append, List.mem_singleton] at hx
        rcases hx with hx | hx
        · subst hx
          right
          simp [Effect.key, hcs]
        · cases card with
          | none => simp at hx
          | some c =>
            by_cases htr : c.pyTruthy = true
            · simp only [if_pos htr] at hx
              simp only [List.mem_singleton] at hx
              subst hx
              right
              simp [Effect.key, hcs]
            · simp only [if_neg htr] at hx
              simp at hx
    · rw [if_neg hth] at h
      injection h with h1
      subst h1
      refine ⟨by simp [hcs], ?_⟩
      intro x hx
      simp only [List.mem_singleton] at hx
      subst hx
      right
      simp [Effect.key, hcs]

theorem handleTexts_key_inv (gem : String → GeminiOutcome) :
    ∀ (texts : List (String × Bool)) (s : TranscriptState) (clock : List ℚ),
    (∀ e, handleTexts gem s clock texts = .error e →
      ∀ x ∈ e, x.key = none ∨ x.key = some s.call_sid) ∧
    (∀ r, handleTexts gem s clock texts = .ok r →
      r.1.call_sid = s.call_sid ∧
      ∀ x ∈ r.2.2, x.key = none ∨ x.key = some s.call_sid) := by
  intro texts
  induction texts with
  | nil =>
    intro s clock
    constructor
    · intro e h
      simp [handleTexts] at h
    · intro r h
      simp only [handleTexts] at h
      injection h with h1
      subst h1
      exact ⟨rfl, by simp⟩
  | cons p rest ih =>
    intro s clock
    obtain ⟨t, fin⟩ := p
    constructor
    · intro e h
      simp only [handleTexts] at h
      cases h1 : handleRecText gem s t fin (clock.headD 0) with
      | error e1 =>
        simp only [h1] at h
        injection h with h2
        subst h2
        exact (handleRecText_key_inv gem s t fin (clock.headD 0)).1 e1 h1
      | ok sr =>
        simp only [h1] at h
        cases h2 : handleTexts gem sr.1 clock.tail rest with
        | error e2 =>
          simp only [h2] at h
          injection h with h3
          subst h3
          intro x hx
          rcases List.mem_append.mp hx with hx | hx
          · exact ((handleRecText_key_inv gem s t fin (clock.headD 0)).2 sr h1).2 x hx
          · have hcs := ((handleRecText_key_inv gem s t fin (clock.headD 0)).2 sr h1).1
            have hkey := ((ih sr.1 clock.tail).1 e2 h2) x hx
            rwa [hcs] at hkey
        | ok sr2 =>
          simp only [h2] at h
          exact Except.noConfusion h
    · intro r h
      simp only [handleTexts] at h
      cases h1 : handleRecText gem s t fin (clock.headD 0) with
      | error e1 =>
        simp only [h1] at h
        exact Except.noConfusion h
      | ok sr =>
        simp only [h1] at h
        cases h2 : handleTexts gem sr.1 clock.tail rest with
        | error e2 =>
          simp only [h2] at h
          exact Except.noConfusion h
        | ok sr2 =>
          simp only [h2] at h
          injection h with h3
          subst h3
          have hcs := ((handleRecText_key_inv gem s t fin (clock.headD 0)).2 sr h1).1
          have hih := (ih sr.1 clock.tail).2 sr2 h2
          refine ⟨by rw [hih.1, hcs], ?_⟩
          intro x hx
          rcases List.mem_append.mp hx with hx | hx
          · exact ((handleRecText_key_inv gem s t fin (clock.headD 0)).2 sr h1).2 x hx
          · have hkey := hih.2 x hx
            rwa [hcs] at hkey

theorem loopAux_key_inv {σ : Type} (cfg : Config) (E : RecEngine σ)
    (frameLen : Nat) (gem : String → GeminiOutcome) :
    ∀ (msgs : List InMsg), (∀ m ∈ msgs, m.isStart = false) →
    ∀ (clock : List ℚ) (es : σ) (buf : List Int) (s : TranscriptState),
    ∀ e ∈ (loopAux cfg E frameLen gem msgs clock es buf (some s)).1,
      e.key = none ∨ e.key = some s.call_sid := by
  intro msgs
  induction msgs with
  | nil =>
    intro _ clock es buf s e he
    simp [loopAux] at he
  | cons msg rest ih =>
    intro hns clock es buf s e he
    have hnr : ∀ m ∈ rest, m.isStart = false :=
      fun m hm => hns m (List.mem_cons_of_mem _ hm)
    cases msg with
    | malformed => simp [loopAux] at he
    | start a b =>
      have hcon := hns (.start a b) (List.mem_cons_self _ _)
      simp [InMsg.isStart] at hcon
    | media chunk =>
      simp only [loopAux] at he
      by_cases hg : guardTrips cfg s (clock.headD 0)
      · rw [if_pos hg] at he
        simp only [List.mem_cons, List.not_mem_nil, or_false] at he
        rcases he with he | he <;> subst he <;> simp [Effect.key]
      · rw [if_neg hg] at he
        cases hht : handleTexts gem s
            (if cfg.freeTierGuard then clock.tail else clock)
            (processChunk E frameLen es buf chunk).2.2 with
        | error e1 =>
          simp only [hht] at he
          exact (handleTexts_key_inv gem _ s _).1 e1 hht e he
        | ok hr =>
          simp only [hht] at he
          rcases List.mem_append.mp he with he | he
          · exact ((handleTexts_key_inv gem _ s _).2 hr hht).2 e he
          · have hcs := ((handleTexts_key_inv gem _ s _).2 hr hht).1
            have hkey := ih hnr hr.2.1 (processChunk E frameLen es buf chunk).1
              (processChunk E frameLen es buf chunk).2.1 hr.1 e he
            rwa [hcs] at hkey
    | stop =>
      simp only [loopAux] at he
      by_cases hg : guardTrips cfg s (clock.headD 0)
      · rw [if_pos hg] at he
        simp only [List.mem_cons, List.not_mem_nil, or_false] at he
        rcases he with he | he <;> subst he <;> simp [Effect.key]
      · rw [if_neg hg] at he
        cases hfl : (cheetahFlush E es).2 with
        | some rr =>
          simp only [hfl] at he
          by_cases hp : s.pending_text ≠ ""
          · simp only [if_pos hp] at he
            simp only [List.cons_append, List.nil_append, List.mem_cons,
              List.not_mem_nil, or_false] at he
            rcases he with he | he | he <;> subst he <;>
              simp [Effect.key, update_final_call_sid]
          · simp only [if_neg hp] at he
            simp only [List.nil_append, List.mem_cons, List.not_mem_nil,
              or_false] at he
            rcases he with he | he <;> subst he <;>
              simp [Effect.key, update_final_call_sid]
        | none =>
          simp only [hfl] at he
          by_cases hp : s.pending_text ≠ ""
          · simp only [if_pos hp] at he
            simp only [List.cons_append, List.nil_append, List.mem_cons,
              List.not_mem_nil, or_false] at he
            rcases he with he | he <;> subst he <;>
              simp [Effect.key, update_final_call_sid]
          · simp only [if_neg hp] at he
            simp only [List.nil_append, List.mem_cons, List.not_mem_nil,
              or_false] at he
            subst he
            simp [Effect.key]
    | other k =>
      simp only [loopAux] at he
      by_cases hg : guardTrips cfg s (clock.headD 0)
      · rw [if_pos hg] at he
        simp only [List.mem_cons, List.not_mem_nil, or_false] at he
        rcases he with he | he <;> subst he <;> simp [Effect.key]
      · rw [if_neg hg] at he
        exact ih hnr _ es buf s e he

/-- C10: a start payload carrying a streamSid but no callSid still creates
a session: the call identifier defaults to the streamSid (so
`call_sid = stream_sid = streamSid` in the created state), the connected
snapshot is keyed by the streamSid, and — as long as no further start
event arrives — every keyed effect emitted for the rest of the run is
keyed by the streamSid. -/
theorem start_without_callSid_defaults {σ : Type} (cfg : Config)
    (E : RecEngine σ) (frameLen : Nat) (gem : String → GeminiOutcome)
    (stream : String) (rest : List InMsg) (clock : List ℚ) (es : σ)
    (buf : List Int) (st : Option TranscriptState)
    (hns : ∀ m ∈ rest, m.isStart = false) :
    loopAux cfg E frameLen gem (InMsg.start stream none :: rest) clock es buf st
      = (Effect.patchConnected stream stream ::
          (loopAux cfg E frameLen gem rest clock.tail es buf
            (some { call_sid := stream, stream_sid := stream,
                    started_at := clock.headD 0 })).1,
         (loopAux cfg E frameLen gem rest clock.tail es buf
            (some { call_sid := stream, stream_sid := stream,
                    started_at := clock.headD 0 })).2) ∧
    (∀ e ∈ (loopAux cfg E frameLen gem (InMsg.start stream none :: rest)
        clock es buf st).1,
      e.key = none ∨ e.key = some stream) := by
  have hmain : loopAux cfg E frameLen gem (InMsg.start stream none :: rest)
      clock es buf st
      = (Effect.patchConnected stream stream ::
          (loopAux cfg E frameLen gem rest clock.tail es buf
            (some { call_sid := stream, stream_sid := stream,
                    started_at := clock.headD 0 })).1,
         (loopAux cfg E frameLen gem rest clock.tail es buf
            (some { call_sid := stream, stream_sid := stream,
                    started_at := clock.headD 0 })).2) := by
    simp [loopAux]
  refine ⟨hmain, ?_⟩
  intro e he
  rw [hmain] at he
  simp only [List.mem_cons] at he
  rcases he with he | he
  · subst he
    right
    simp [Effect.key]
  · exact loopAux_key_inv cfg E frameLen gem rest hns clock.tail es buf
      { call_sid := stream, stream_sid := stream,
        started_at := clock.headD 0 } e he

/-- C10 witness: a start event with no callSid followed by a stop. -/
theorem start_without_callSid_defaults_witness :
    (∀ m ∈ [InMsg.stop], m.isStart = false) ∧
    (loopAux { freeTierGuard := false, maxCallMinutes := 1 } trivEngine 2
        gemEmpty (InMsg.start "SW" none :: [InMsg.stop]) [0] 0 [] none
      = (Effect.patchConnected "SW" "SW" ::
          (loopAux { freeTierGuard := false, maxCallMinutes := 1 } trivEngine 2
            gemEmpty [InMsg.stop] ([0] : List ℚ).tail 0 []
            (some { call_sid := "SW", stream_sid := "SW",
                    started_at := ([0] : List ℚ).headD 0 })).1,
         (loopAux { freeTierGuard := false, maxCallMinutes := 1 } trivEngine 2
            gemEmpty [InMsg.stop] ([0] : List ℚ).tail 0 []
            (some { call_sid := "SW", stream_sid := "SW",
                    started_at := ([0] : List ℚ).headD 0 })).2) ∧
      (∀ e ∈ (loopAux { freeTierGuard := false, maxCallMinutes := 1 }
          trivEngine 2 gemEmpty (InMsg.start "SW" none :: [InMsg.stop])
          [0] 0 [] none).1,
        e.key = none ∨ e.key = some "SW")) := by
  have hns : ∀ m ∈ [InMsg.stop], m.isStart = false := by
    intro m hm
    simp only [List.mem_singleton] at hm
    subst hm
    rfl
  exact ⟨hns, start_without_callSid_defaults
    { freeTierGuard := false, maxCallMinutes := 1 } trivEngine 2 gemEmpty
    "SW" [InMsg.stop] [0] 0 [] none hns⟩

/-!  ## C3: protocol errors -/

/-- Configuration mirroring the source defaults (lines 37-38): guard
disabled, maximum 90·60 minutes. -/
def cfgOff : Config := { freeTierGuard := false, maxCallMinutes := 90 * 60 }

/-- C3 (amended): a parseable message with an unrecognized discriminant,
or any non-start parseable message arriving before a session exists, is
discarded — no effect, session state unchanged, the loop continues with
the remaining messages (for a live session this holds provided the
duration guard does not trip on that event, since the source checks the
guard before dispatching on the kind); a message that `json.loads` cannot
parse, however, raises out of the loop and terminates the connection. -/
theorem protocol_error_handling {σ : Type} (cfg : Config) (E : RecEngine σ)
    (frameLen : Nat) (gem : String → GeminiOutcome) :
    (∀ (k : String) (rest : List InMsg) (clock : List ℚ) (es : σ)
        (buf : List Int),
      loopAux cfg E frameLen gem (InMsg.other k :: rest) clock es buf none
        = loopAux cfg E frameLen gem rest clock es buf none) ∧
    (∀ (chunk : List Int) (rest : List InMsg) (clock : List ℚ) (es : σ)
        (buf : List Int),
      loopAux cfg E frameLen gem (InMsg.media chunk :: rest) clock es buf none
        = loopAux cfg E frameLen gem rest clock es buf none) ∧
    (∀ (rest : List InMsg) (clock : List ℚ) (es : σ) (buf : List Int),
      loopAux cfg E frameLen gem (InMsg.stop :: rest) clock es buf none
        = loopAux cfg E frameLen gem rest clock es buf none) ∧
    (∀ (k : String) (rest : List InMsg) (clock : List ℚ) (es : σ)
        (buf : List Int) (s : TranscriptState),
      ¬ guardTrips cfg s (clock.headD 0) →
      loopAux cfg E frameLen gem (InMsg.other k :: rest) clock es buf (some s)
        = loopAux cfg E frameLen gem rest
            (if cfg.freeTierGuard then clock.tail else clock) es buf (some s)) ∧
    (∀ (rest : List InMsg) (clock : List ℚ) (es : σ) (buf : List Int)
        (st : Option TranscriptState),
      loopAux cfg E frameLen gem (InMsg.malformed :: rest) clock es buf st
        = ([], Outcome.crashed)) := by
  refine ⟨?_, ?_, ?_, ?_, ?_⟩
  · intro k rest clock es buf
    rfl
  · intro chunk rest clock es buf
    rfl
  · intro rest clock es buf
    rfl
  · intro k rest clock es buf s hg
    simp only [loopAux]
    rw [if_neg hg]
  · intro rest clock es buf st
    rfl

/-- C3 witness: an unrecognized `"mark"` message on a live session with
the guard disabled is discarded and the loop continues unchanged. -/
theorem protocol_error_handling_witness :
    (¬ guardTrips cfgOff gswit (([5] : List ℚ).headD 0)) ∧
    loopAux cfgOff trivEngine 2 gemEmpty [InMsg.other "mark"] [5] 0 []
        (some gswit)
      = loopAux cfgOff trivEngine 2 gemEmpty []
          (if cfgOff.freeTierGuard then ([5] : List ℚ).tail else [5]) 0 []
          (some gswit) := by
  have hng : ¬ guardTrips cfgOff gswit (([5] : List ℚ).headD 0) := by
    simp [guardTrips, cfgOff]
  exact ⟨hng, (protocol_error_handling cfgOff trivEngine 2 gemEmpty).2.2.2.1
    "mark" [] [5] 0 [] gswit hng⟩

/-- The malformed-message run for the C3 counterexample: a session is
started, then a message arrives that `json.loads` cannot parse, then a
stop event. -/
def c3run : List Effect × Outcome :=
  twilio_websocket cfgOff trivEngine 2 gemEmpty
    [InMsg.start "S3" none, InMsg.malformed, InMsg.stop] [0] 0

/-- C3 counterexample: the malformed message is not discarded — the
uncaught `json.loads` exception terminates the connection (outcome
`crashed`), the following stop event is never processed and no completion
snapshot is emitted, contradicting the claim that such a message leaves
the session processing subsequent messages. -/
theorem malformed_not_discarded_counterexample :
    c3run = ([Effect.patchConnected "S3" "S3", Effect.firebaseClose,
              Effect.engineRelease], Outcome.crashed) ∧
    ¬ (Outcome.crashed = Outcome.drained) ∧
    ¬ (Outcome.crashed = Outcome.stopped) := by
  refine ⟨?_, by decide, by decide⟩
  simp [c3run, twilio_websocket, runFrom, loopAux]

/-!  ## C1: the enrichment throttle

The per-text enrichment bookkeeping of lines 450-464 is instrumented with
a ghost variable recording the view that produced the most recently pushed
summary card — a quantity the claim refers to but the source does not
track. -/

/-- One step record of the instrumented enrichment run: the clock reading
of the step, the `last_ai_push` value before the step, the combined view
after the transcript update, the view that produced the most recently
pushed card before this step (ghost, initially `""`), and whether the step
invoked the summarization model. -/
structure StepInfo where
  now : ℚ
  lastPushPrev : ℚ
  view : String
  ghostPrev : String
  invoked : Bool
deriving Repr

/-- Ghost-instrumented run of the per-text loop of the `media` branch
(lines 450-464): each `(text, isEndpoint, now)` step updates the
transcript exactly as the source does; when the throttle is open
(`now - last_ai_push > 1.0`) the step calls `build_ai_card` on the
combined view — consulting the model iff the view is non-empty — updates
the ghost when a truthy card is pushed, and stamps
`last_ai_push := now`; the run stops if the model raises. -/
def enrichRun (gem : String → GeminiOutcome) :
    TranscriptState → String → List (String × Bool × ℚ) → List StepInfo
  | _, _, [] => []
  | s, ghost, (t, fin, now) :: rest =>
    let s1 := if fin then s.update_final t else { s with pending_text := t }
    let view := combinedView s1
    if throttleOpen s1.last_ai_push now then
      let info : StepInfo :=
        ⟨now, s1.last_ai_push, view, ghost, decide (¬ view = "")⟩
      match build_ai_card gem view with
      | .error _ => [info]
      | .ok card =>
        let pushed := match card with | some c => c.pyTruthy | none => false
        let ghost1 := if pushed then view else ghost
        info :: enrichRun gem { s1 with last_ai_push := now } ghost1 rest
    else
      ⟨now, s1.last_ai_push, view, ghost, false⟩ :: enrichRun gem s1 ghost rest

/-- The clock readings of the steps at which the summarization model was
invoked. -/
def invocTimes : List StepInfo → List ℚ
  | [] => []
  | i :: l => if i.invoked then i.now :: invocTimes l else invocTimes l

theorem update_final_last_push (s : TranscriptState) (t : String) :
    (s.update_final t).last_ai_push = s.last_ai_push := by
  by_cases ht : t = "" <;> by_cases hf : s.final_text = "" <;>
    simp [TranscriptState.update_final, ht, hf]

/-- Unfolding lemma: one non-endpoint step with the throttle open and a
truthy card. -/
theorem enrichRun_cons_open (gem : String → GeminiOutcome)
    (s : TranscriptState) (ghost t : String) (now : ℚ)
    (rest : List (String × Bool × ℚ)) (c : JVal)
    (hth : throttleOpen s.last_ai_push now)
    (hbc : build_ai_card gem (combinedView { s with pending_text := t })
      = .ok (some c))
    (htr : c.pyTruthy = true) :
    enrichRun gem s ghost ((t, false, now) :: rest)
      = ⟨now, s.last_ai_push, combinedView { s with pending_text := t }, ghost,
          decide (¬ combinedView { s with pending_text := t } = "")⟩ ::
        enrichRun gem
          { s with pending_text := t, last_ai_push := now }
          (combinedView { s with pending_text := t }) rest := by
  simp only [enrichRun, Bool.false_eq_true, if_false, if_pos hth, hbc, htr,
    if_true]

theorem invocTimes_nil : invocTimes [] = [] := rfl

theorem invocTimes_cons (i : StepInfo) (l : List StepInfo) :
    invocTimes (i :: l)
      = if i.invoked then i.now :: invocTimes l else invocTimes l := rfl

/-- A summarization oracle whose model always returns `"x"` (unparsable,
so every consulted call produces the truthy fallback card). -/
def gemX : String → GeminiOutcome := fun _ => GeminiOutcome.returns "x"

/-- Fresh session state for the C1 run. -/
def s1a : TranscriptState :=
  { call_sid := "C1a", stream_sid := "S1a", started_at := 0 }

/-- The C1 run: the engine reports the same hypothesis `"hi"` twice,
2 s apart, so the combined view is unchanged between the two steps. -/
def c1run : List StepInfo :=
  enrichRun gemX s1a "" [("hi", false, 2), ("hi", false, 4)]

/-- C1 counterexample: in a run where the view `"hi"` is unchanged
between two steps 2 s apart, the code invokes the summarization model at
both steps — the second invocation happens although the view equals the
text that produced the previous push, refuting the claimed "only if the
view differs" condition. -/
theorem throttle_no_dedup_counterexample :
    c1run = [⟨2, 0, "hi", "", true⟩, ⟨4, 2, "hi", "hi", true⟩] ∧
    ¬ (∀ i ∈ c1run, i.invoked = true ↔
        (¬ i.view = "" ∧ ¬ i.view = i.ghostPrev ∧
          i.now - i.lastPushPrev ≥ 1)) := by
  have h1 : throttleOpen s1a.last_ai_push 2 := by
    norm_num [throttleOpen, s1a]
  have h2 : throttleOpen
      (({ s1a with pending_text := "hi", last_ai_push := 2 } :
        TranscriptState)).last_ai_push 4 := by
    norm_num [throttleOpen]
  have hbc1 : build_ai_card gemX
      (combinedView { s1a with pending_text := "hi" })
      = Except.ok (some (fallbackCard "x")) := by rfl
  have hbc2 : build_ai_card gemX
      (combinedView { ({ s1a with pending_text := "hi", last_ai_push := 2 } :
        TranscriptState) with pending_text := "hi" })
      = Except.ok (some (fallbackCard "x")) := by rfl
  have hv : combinedView { s1a with pending_text := "hi" } = "hi" := by rfl
  have hv2 : combinedView
      { ({ s1a with pending_text := "hi", last_ai_push := 2 } :
        TranscriptState) with pending_text := "hi" } = "hi" := by rfl
  have hrun : c1run = [⟨2, 0, "hi", "", true⟩, ⟨4, 2, "hi", "hi", true⟩] := by
    show enrichRun gemX s1a "" [("hi", false, 2), ("hi", false, 4)] = _
    rw [enrichRun_cons_open gemX s1a "" "hi" 2 [("hi", false, 4)]
      (fallbackCard "x") h1 hbc1 rfl]
    rw [enrichRun_cons_open gemX
      ({ s1a with pending_text := "hi", last_ai_push := 2 })
      (combinedView { s1a with pending_text := "hi" }) "hi" 4 []
      (fallbackCard "x") h2 hbc2 rfl]
    rw [hv, hv2]
    simp [enrichRun, s1a]
  refine ⟨hrun, ?_⟩
  intro hall
  have h2nd := hall ⟨4, 2, "hi", "hi", true⟩ (by rw [hrun]; simp)
  rcases h2nd.mp rfl with ⟨_, habs, _⟩
  exact habs rfl

theorem enrichRun_invoked_iff (gem : String → GeminiOutcome) :
    ∀ (steps : List (String × Bool × ℚ)) (s : TranscriptState)
      (ghost : String),
    ∀ i ∈ enrichRun gem s ghost steps,
      i.invoked = (decide (throttleOpen i.lastPushPrev i.now)
        && decide (¬ i.view = "")) := by
  intro steps
  induction steps with
  | nil =>
    intro s ghost i hi
    simp [enrichRun] at hi
  | cons q rest ih =>
    intro s ghost i hi
    obtain ⟨t, fin, now⟩ := q
    simp only [enrichRun] at hi
    by_cases hth : throttleOpen
        ((if fin = true then s.update_final t
          else { s with pending_text := t }) : TranscriptState).last_ai_push now
    · rw [if_pos hth] at hi
      cases hbc : build_ai_card gem (combinedView
          (if fin = true then s.update_final t
            else { s with pending_text := t })) with
      | error u =>
        simp only [hbc] at hi
        simp only [List.mem_singleton] at hi
        subst hi
        simp [decide_eq_true hth]
      | ok card =>
        simp only [hbc] at hi
        simp only [List.mem_cons] at hi
        rcases hi with hi | hi
        · subst hi
          simp [decide_eq_true hth]
        · exact ih _ _ i hi
    · rw [if_neg hth] at hi
      simp only [List.mem_cons] at hi
      rcases hi with hi | hi
      · subst hi
        simp [decide_eq_false hth]
      · exact ih _ _ i hi

theorem throttle_spacing_aux (gem : String → GeminiOutcome) :
    ∀ (steps : List (String × Bool × ℚ)) (s : TranscriptState)
      (ghost : String),
    ((steps.map (fun q => q.2.2)).Pairwise (· ≤ ·)) →
    (∀ q ∈ steps, s.last_ai_push ≤ q.2.2) →
    List.Chain' (fun a b => a + 1 < b)
      (invocTimes (enrichRun gem s ghost steps)) ∧
    (∀ u ∈ invocTimes (enrichRun gem s ghost steps),
      s.last_ai_push + 1 < u) := by
  intro steps
  induction steps with
  | nil =>
    intro s ghost _ _
    constructor
    · simp [enrichRun, invocTimes]
    · intro u hu
      simp [enrichRun, invocTimes] at hu
  | cons q rest ih =>
    intro s ghost hsort hlb
    obtain ⟨t, fin, now⟩ := q
    have hsort' : (rest.map (fun q => q.2.2)).Pairwise (· ≤ ·) :=
      (List.pairwise_cons.mp hsort).2
    have hhead : ∀ q ∈ rest, now ≤ q.2.2 := by
      intro q hq
      exact (List.pairwise_cons.mp hsort).1 _ (List.mem_map_of_mem _ hq)
    have hnow : s.last_ai_push ≤ now :=
      hlb (t, fin, now) (List.mem_cons_self _ _)
    have hs1push : ((if fin = true then s.update_final t
        else { s with pending_text := t }) : TranscriptState).last_ai_push
        = s.last_ai_push := by
      cases fin <;> simp [update_final_last_push]
    simp only [enrichRun]
    by_cases hth : throttleOpen
        ((if fin = true then s.update_final t
          else { s with pending_text := t }) : TranscriptState).last_ai_push now
    · have hth' : s.last_ai_push + 1 < now := by
        have hth2 := hth
        rw [hs1push] at hth2
        unfold throttleOpen at hth2
        linarith
      rw [if_pos hth]
      cases hbc : build_ai_card gem (combinedView
          (if fin = true then s.update_final t
            else { s with pending_text := t })) with
      | error u =>
        simp only [hbc]
        generalize (combinedView (if fin = true then s.update_final t
          else { s with pending_text := t })) = v
        constructor
        · cases hd : (decide (¬ v = "")) <;> simp [invocTimes, hd]
        · intro w hw
          cases hd : (decide (¬ v = "")) with
          | false => simp [invocTimes, hd] at hw
          | true =>
            simp only [invocTimes, hd, if_true, List.mem_singleton,
              invocTimes_nil, List.not_mem_nil, or_false, if_pos] at hw
            subst hw
            exact hth'
      | ok card =>
        simp only [hbc]
        generalize (combinedView (if fin = true then s.update_final t
          else { s with pending_text := t })) = v
        have hlbtail : ∀ q ∈ rest,
            (({ ((if fin = true then s.update_final t
              else { s with pending_text := t }) : TranscriptState) with
              last_ai_push := now } : TranscriptState)).last_ai_push ≤ q.2.2 := by
          intro q hq
          simpa using hhead q hq
        constructor
        · cases hd : (decide (¬ v = "")) with
          | false =>
            simp only [invocTimes, hd, Bool.false_eq_true, if_false]
            exact (ih _ _ hsort' hlbtail).1
          | true =>
            simp only [invocTimes, hd, if_true]
            refine List.chain'_cons'.mpr ⟨?_, (ih _ _ hsort' hlbtail).1⟩
            intro y hy
            have hb := (ih _ _ hsort' hlbtail).2 y (List.mem_of_mem_head? hy)
            simpa using hb
        · intro w hw
          cases hd : (decide (¬ v = "")) with
          | false =>
            simp only [invocTimes, hd, Bool.false_eq_true, if_false] at hw
            have hb := (ih _ _ hsort' hlbtail).2 w hw
            have hb2 : now + 1 < w := by simpa using hb
            linarith
          | true =>
            simp only [invocTimes, hd, if_true, List.mem_cons] at hw
            rcases hw with hw | hw
            · subst hw
              exact hth'
            · have hb := (ih _ _ hsort' hlbtail).2 w hw
              have hb2 : now + 1 < w := by simpa using hb
              linarith
    · rw [if_neg hth]
      have hlb2 : ∀ q ∈ rest,
          ((if fin = true then s.update_final t
            else { s with pending_text := t }) : TranscriptState).last_ai_push
            ≤ q.2.2 := by
        intro q hq
        rw [hs1push]
        exact hlb q (List.mem_cons_of_mem _ hq)
      have hih := ih
        ((if fin = true then s.update_final t
          else { s with pending_text := t }) : TranscriptState)
        ghost hsort' hlb2
      simp only [invocTimes, Bool.false_eq_true, if_false]
      constructor
      · exact hih.1
      · intro w hw
        have hb := hih.2 w hw
        rw [hs1push] at hb
        exact hb

/-- C1 (amended): for every media-text run (with nondecreasing clock
readings at or after the session's `last_ai_push`), a step invokes the
summarization model if and only if the throttle is open — strictly more
than 1.0 s since the last `last_ai_push` stamp — and the combined view is
non-empty; the code performs no comparison with previously enriched text.
Consequently any two consecutive model invocations are strictly more than
1.0 s apart. -/
theorem throttle_amended (gem : String → GeminiOutcome)
    (steps : List (String × Bool × ℚ)) (s : TranscriptState) (ghost : String)
    (hsort : (steps.map (fun q => q.2.2)).Pairwise (· ≤ ·))
    (hlb : ∀ q ∈ steps, s.last_ai_push ≤ q.2.2) :
    (∀ i ∈ enrichRun gem s ghost steps,
      i.invoked = (decide (throttleOpen i.lastPushPrev i.now)
        && decide (¬ i.view = ""))) ∧
    List.Chain' (fun a b => a + 1 < b)
      (invocTimes (enrichRun gem s ghost steps)) :=
  ⟨enrichRun_invoked_iff gem steps s ghost,
    (throttle_spacing_aux gem steps s ghost hsort hlb).1⟩

/-- C1 witness: the amended statement applied to a two-step run at clock
readings 2 and 4. -/
theorem throttle_amended_witness :
    ((([("a", false, (2 : ℚ)), ("b", false, 4)].map
        (fun q => q.2.2)).Pairwise (· ≤ ·)) ∧
      (∀ q ∈ [("a", false, (2 : ℚ)), ("b", false, 4)],
        s1a.last_ai_push ≤ q.2.2)) ∧
    ((∀ i ∈ enrichRun gemX s1a "" [("a", false, 2), ("b", false, 4)],
      i.invoked = (decide (throttleOpen i.lastPushPrev i.now)
        && decide (¬ i.view = ""))) ∧
    List.Chain' (fun a b => a + 1 < b)
      (invocTimes (enrichRun gemX s1a "" [("a", false, 2), ("b", false, 4)]))) := by
  have hsort : (([("a", false, (2 : ℚ)), ("b", false, 4)].map
      (fun q => q.2.2)).Pairwise (· ≤ ·)) := by
    simp [List.pairwise_cons]
    norm_num
  have hlb : ∀ q ∈ [("a", false, (2 : ℚ)), ("b", false, 4)],
      s1a.last_ai_push ≤ q.2.2 := by
    intro q hq
    simp only [List.mem_cons, List.not_mem_nil, or_false] at hq
    rcases hq with hq | hq <;> subst hq <;> norm_num [s1a]
  exact ⟨⟨hsort, hlb⟩,
    throttle_amended gemX [("a", false, 2), ("b", false, 4)] s1a "" hsort hlb⟩

end Receptive
